import Mathlib

/-!
Shallow embedding of the mail-forwarder Lambda pipeline
(`src/unnamed/part_000` of the repository) and verification of the
spec's claims about it.

Conventions of the embedding:
* JS strings are Lean `String`s; the character-level regex operations of
  the source are implemented on `List Char` (`String.data`).
* `process.env` configuration values and the external collaborators
  (S3 get, SES send, the Lambda completion callback, the parsed
  `FORWARD_MAPPING` value) are passed as explicit parameters.
* Fallible stages return `Except Err Data`, mirroring `throw` in the
  source; the error constructors correspond to the spec's error kinds
  (the source raises plain `Error`s with distinguishing messages).
* `JSON.parse(process.env.FORWARD_MAPPING)` is a library call, so its
  outcome is a parameter `parsedTable : Option FwdTable`: `none` models
  a parse failure (the `catch` branch), `some t` a successful parse.
  A parsed JSON object is an association list with distinct keys.
-/

namespace MailForwarder

/-- Error kinds of the pipeline (spec section 7). The source raises
`Error` values whose messages distinguish the kinds. -/
inductive Err where
  | invalidEvent
  | configError
  | fetchError
  | sendError
  deriving DecidableEq, Repr

/-- JS line terminators: the characters that `.` does not match and
after which a multiline `^` anchors (\n, \r, U+2028, U+2029). -/
def isTermChar (c : Char) : Bool :=
  c = '\n' || c = '\r' || c.toNat = 0x2028 || c.toNat = 0x2029

/-- Characters matched by `.` in a JS regex without the `s` flag. -/
def isDotChar (c : Char) : Bool := !(isTermChar c)

/-- Characters matched by `\s` in a JS regex (whitespace, including all
line terminators). -/
def isWsChar (c : Char) : Bool :=
  c = ' ' || c = '\t' || c = '\n' || c = '\r' ||
  c.toNat = 0x0b || c.toNat = 0x0c || c.toNat = 0xa0 || c.toNat = 0x1680 ||
  (0x2000 ≤ c.toNat && c.toNat ≤ 0x200a) ||
  c.toNat = 0x2028 || c.toNat = 0x2029 || c.toNat = 0x202f ||
  c.toNat = 0x205f || c.toNat = 0x3000 || c.toNat = 0xfeff

/-! ### Address normalization (`transformRecipients`, line 52)

`origEmail.toLowerCase().replace(/\+.*?@/, '@')`: lower-case, then a
single (non-global) replacement of the leftmost match of `\+.*?@` by
`"@"`.  The leftmost match starts at the first `+` from which an `@` is
reachable through `.`-matchable characters, and the lazy `.*?` makes the
match end at the nearest such `@`. -/

/-- Scan for the nearest `@` reachable through `.`-matchable characters;
returns the remainder after that `@` (the lazy `.*?@` tail). -/
def findAtSign : List Char → Option (List Char)
  | [] => none
  | c :: r => if c = '@' then some r else if isTermChar c then none else findAtSign r

/-- One non-global replacement of `/\+.*?@/` by `"@"`: the leftmost `+`
with a reachable `@` has the segment from it through that `@` replaced
by a single `@`; everything after the match is kept untouched. -/
def stripPlusL : List Char → List Char
  | [] => []
  | c :: r =>
    if c = '+' then
      match findAtSign r with
      | some rest => '@' :: rest
      | none => c :: stripPlusL r
    else c :: stripPlusL r

/-- The normalized lookup key of a recipient address (line 52 of the
source).  `Char.toLower` matches JS `toLowerCase` on ASCII input. -/
def normalize (s : String) : String :=
  String.mk (stripPlusL (s.data.map Char.toLower))

/-! ### Forwarding table -/

/-- A parsed `FORWARD_MAPPING` JSON object: keys to destination lists. -/
def FwdTable := List (String × List String)

/-- Property access `t[k]` on the parsed object. -/
def tblGet (t : FwdTable) (k : String) : Option (List String) :=
  match t with
  | [] => none
  | (k', v) :: r => if k' = k then some v else tblGet r k

/-- The JS `k in t` test. -/
def tblMem (t : FwdTable) (k : String) : Bool :=
  match t with
  | [] => false
  | (k', _) :: r => k' = k || tblMem r k

/-- Position of the last `@` in a key (`lastIndexOf("@")`); `none` is
the source's `-1` case. -/
def lastAtPos : List Char → Option Nat
  | [] => none
  | c :: r =>
    match lastAtPos r with
    | some i => some (i + 1)
    | none => if c = '@' then some 0 else none

/-- Destination resolution for one normalized key (lines 64-86 of the
source): exact match, else domain part (`slice(pos)`), else local part
(`slice(0, pos)`) — both guarded by JS truthiness, so an empty local
part is skipped — else the catch-all key `"@"`.  `none` means no rule
matched (nothing is pushed and the envelope sender is not updated). -/
def resolveKey (t : FwdTable) (key : String) : Option (List String) :=
  match tblGet t key with
  | some l => some l
  | none =>
    match lastAtPos key.data with
    | none =>
      -- pos = -1: origEmailUser = key, origEmailDomain stays undefined
      if key ≠ "" && tblMem t key then tblGet t key else tblGet t "@"
    | some p =>
      let domain : String := String.mk (key.data.drop p)
      let user : String := String.mk (key.data.take p)
      if domain ≠ "" && tblMem t domain then tblGet t domain
      else if user ≠ "" && tblMem t user then tblGet t user
      else tblGet t "@"

/-! ### Pipeline data model -/

/-- `event.Records[0].ses.mail`. -/
structure SESMail where
  messageId : String
  deriving DecidableEq, Repr

/-- `event.Records[0].ses.receipt`. -/
structure SESReceipt where
  recipients : List String
  deriving DecidableEq, Repr

/-- The `ses` block of a record. -/
structure SESInfo where
  mail : SESMail
  receipt : SESReceipt
  deriving DecidableEq, Repr

/-- One notification record. -/
structure SESRecord where
  eventSource : String
  eventVersion : String
  ses : SESInfo
  deriving DecidableEq, Repr

/-- The inbound Lambda event. -/
structure SESEvent where
  Records : List SESRecord
  deriving DecidableEq, Repr

/-- The `overrides.config` object; only `toEmail` is read (line 164). -/
structure Config where
  toEmail : Option String := none
  deriving DecidableEq, Repr

/-- The shared pipeline context (`interface Data` of the source) minus
the injected collaborators (`callback`, `log`, `ses`, `s3`, `context`),
which are modeled as explicit parameters of the stages that use them. -/
structure Data where
  event : SESEvent
  config : Config
  email : Option SESMail := none
  recipients : Option (List String) := none
  originalRecipients : Option (List String) := none
  originalRecipient : Option String := none
  emailData : Option String := none
  deriving DecidableEq, Repr

/-- A Lambda completion callback, as typed in the source:
`(error?) => Data`.  `none` is the success call `callback()`. -/
def Callback := Option Err → Data

/-! ### Stage 1: parseEvent (lines 28-43) -/

/-- Validates the event (exactly one record, source `aws:ses`, version
`1.0`) and extracts `mail` and `recipients`; otherwise throws. -/
def parseEvent (d : Data) : Except Err Data :=
  match d.event.Records with
  | [r] =>
    if r.eventSource = "aws:ses" && r.eventVersion = "1.0" then
      .ok { d with email := some r.ses.mail,
                   recipients := some r.ses.receipt.recipients }
    else .error .invalidEvent
  | _ => .error .invalidEvent

/-! ### Stage 2: transformRecipients (lines 48-100) -/

/-- The per-recipient loop (lines 51-88): each iteration parses the
forwarding table (throwing `configError` when the parse fails), then
resolves the normalized key, appending the matched destinations and
recording the original address as envelope sender.  Returns the
accumulated destinations and the final envelope sender. -/
def transformLoop (parsedTable : Option FwdTable) :
    List String → List String → Option String →
    Except Err (List String × Option String)
  | [], acc, orig => .ok (acc, orig)
  | r :: rest, acc, orig =>
    match parsedTable with
    | none => .error .configError
    | some t =>
      match resolveKey t (normalize r) with
      | some dests => transformLoop parsedTable rest (acc ++ dests) (some r)
      | none => transformLoop parsedTable rest acc orig

/-- Pure view of the destinations the loop accumulates for a recipient
list (used to characterize the early-exit condition). -/
def newRecipientsOf (t : FwdTable) (rs : List String) : List String :=
  match rs with
  | [] => []
  | r :: rest =>
    (match resolveKey t (normalize r) with
     | some dests => dests
     | none => []) ++ newRecipientsOf t rest

/-- Stage 2.  When the accumulated list is empty the source returns
`data.callback()` — the callback's return value becomes the stage
result handed to the next step (lines 90-96); otherwise the recipients
are replaced and the mutated context is returned. -/
def transformRecipients (parsedTable : Option FwdTable) (cb : Callback)
    (d : Data) : Except Err Data :=
  match transformLoop parsedTable (d.recipients.getD []) [] d.originalRecipient with
  | .error e => .error e
  | .ok (newR, orig) =>
    if newR = [] then .ok (cb none)
    else .ok { d with originalRecipients := d.recipients,
                      recipients := some newR,
                      originalRecipient := orig }

/-! ### Stage 3: fetchMessage (lines 105-130) -/

/-- Stage 3: the S3 collaborator is a partial map from keys to object
bodies; `none` models any retrieval failure (the `catch` branch).  The
key is `keyPrefix + data.email?.messageId`; when `email` is absent the
JS template renders the string `"undefined"`. -/
def fetchMessage (s3 : String → Option String) (keyPref : String)
    (d : Data) : Except Err Data :=
  match s3 (keyPref ++ (match d.email with
                        | some m => m.messageId
                        | none => "undefined")) with
  | some content => .ok { d with emailData := some content }
  | none => .error .fetchError

/-! ### Stage 4: processMessage (lines 136-175)

The header/body split (line 137) matches
`/^((?:.+\r?\n)*)(\r?\n(?:.*\s+)*)/m` and takes groups 1 and 2.
Semantics of that pattern, mirrored below:
* group 1, `(?:.+\r?\n)*`: a run of lines, each a nonempty run of
  `.`-matchable characters followed by `\n` or `\r\n`.  Backtracking
  into this star can never help (after dropping an iteration the cursor
  sits on a `.`-character, where `\r?\n` fails), so the greedy maximal
  run is the run.
* group 2, `\r?\n(?:.*\s+)*`: an empty line, then a greedy star whose
  body is non-empty whitespace-terminated text.  Because every
  character the dot rejects is whitespace, the star consumes exactly
  the longest prefix of the remainder that ends in a whitespace
  character (empty when the remainder has no whitespace at all).
* the `m` flag makes `^` anchor at position 0 and after every line
  terminator; the leftmost anchored position with a match wins; when no
  position matches, `match` is `null`. -/

/-- Consume `\r?\n` if present: the consumed terminator and the rest. -/
def parseNL (u : List Char) : Option (List Char × List Char) :=
  match u with
  | '\n' :: r => some (['\n'], r)
  | '\r' :: '\n' :: r => some (['\r', '\n'], r)
  | _ => none

/-- Parse one group-1 line: at least one `.`-character, then `\n` or
`\r\n`.  Returns the consumed line (terminator included) and the rest. -/
def parseLine (u : List Char) : Option (List Char × List Char) :=
  let d := u.takeWhile isDotChar
  if d.isEmpty then none
  else
    match parseNL (u.dropWhile isDotChar) with
    | some (nl, r) => some (d ++ nl, r)
    | none => none

/-- The greedy group-1 run, fuel-indexed: consumed lines and the rest
(the position where the run stops).  The fuel only bounds the number of
lines; `lineRun` instantiates it with the input length, which
`lineRunF_stable` shows is always enough. -/
def lineRunF : Nat → List Char → List Char × List Char
  | 0, u => ([], u)
  | fuel + 1, u =>
    match parseLine u with
    | none => ([], u)
    | some (l, r) =>
      let (g, rest) := lineRunF fuel r
      (l ++ g, rest)

/-- The greedy group-1 run. -/
def lineRun (u : List Char) : List Char × List Char := lineRunF u.length u

/-- The longest prefix of `r` ending in a whitespace character — what
the greedy `(?:.*\s+)*` consumes. -/
def takeToLastWs (r : List Char) : List Char :=
  (r.reverse.dropWhile (fun c => !isWsChar c)).reverse

/-- Attempt the whole pattern at one anchored position: group-1 run,
then group 2 needs an empty line (`\r?\n`) right there. -/
def matchAt (u : List Char) : Option (List Char × List Char) :=
  match parseNL (lineRun u).2 with
  | some (nl, rest) => some ((lineRun u).1, nl ++ takeToLastWs rest)
  | none => none

/-- The remainder just after the next line terminator: the next `^`
anchor position strictly ahead of the current one. -/
def nextAnchor : List Char → Option (List Char)
  | [] => none
  | c :: r => if isTermChar c then some r else nextAnchor r

/-- The leftmost anchored match of the split pattern, fuel-indexed; the
fuel bounds the number of anchor positions tried. -/
def scanMatchF : Nat → List Char → Option (List Char × List Char)
  | 0, _ => none
  | fuel + 1, u =>
    match matchAt u with
    | some m => some m
    | none =>
      match nextAnchor u with
      | none => none
      | some r => scanMatchF fuel r

/-- The leftmost anchored match of the split pattern (groups 1 and 2),
or `none` when the whole `match` is `null`. -/
def scanMatch (u : List Char) : Option (List Char × List Char) :=
  scanMatchF (u.length + 1) u

/-- Lines 138-139: `header` falls back to the whole message when the
match failed or group 1 is empty (falsy); `body` falls back to `''`. -/
def headerBody (s : List Char) : List Char × List Char :=
  match scanMatch s with
  | none => (s, [])
  | some (g1, g2) => (if g1.isEmpty then s else g1, if g2.isEmpty then [] else g2)

/-! #### Header transformations (lines 141-171)

The five header rewrites are regex driven; each is implemented as a
scanner over the header characters that tracks whether the cursor sits
at a `^` anchor (position 0 or right after a line terminator).  Pattern
pieces that need regex backtracking (`\s+` interacting with a trailing
`\r?\n`) carry a fuel argument; callers pass `length + 1`, which the
recursions never exhaust. -/

/-- Case-insensitive prefix test (`i` flag; ASCII folding). -/
def startsWithCI (pat : List Char) (u : List Char) : Bool :=
  match pat, u with
  | [], _ => true
  | _ :: _, [] => false
  | p :: ps, c :: cs => (Char.toLower c = Char.toLower p) && startsWithCI ps cs

/-- Does any anchored position of `u` start with `pat`
(the `/^pat/mi.test` idiom)?  Fuel bounds the anchors tried; callers
pass `length + 1`, always enough. -/
def testLineStartCI (fuel : Nat) (pat : List Char) (u : List Char) : Bool :=
  match fuel with
  | 0 => false
  | fuel + 1 =>
    startsWithCI pat u ||
      (match nextAnchor u with
       | none => false
       | some r => testLineStartCI fuel pat r)

/-- Consume `[\t ]?`: one tab or space when present. -/
def skipOptWsChar (u : List Char) : List Char :=
  match u with
  | c :: r => if c = '\t' || c = ' ' then r else u
  | [] => u

/-- Greedy `(?:\r?\n\s+.*)*\r?\n` with backtracking (the tail of the
`from:` capture of line 142): try to extend with a fold — `\r?\n`, a
nonempty whitespace run tried from longest to shortest, a dot run —
and otherwise close with a final `\r?\n`.  Returns the consumed
characters and the rest. -/
def foldsThenNL (fuel : Nat) (u : List Char) : Option (List Char × List Char) :=
  match fuel with
  | 0 => none
  | fuel + 1 =>
    match parseNL u with
    | none => none
    | some (nl, u1) =>
      let w := u1.takeWhile isWsChar
      let tryK : Nat → Option (List Char × List Char) := fun k =>
        if k = 0 then none
        else
          let ws := u1.take k
          let after := u1.drop k
          let d := after.takeWhile isDotChar
          match foldsThenNL fuel (after.dropWhile isDotChar) with
          | some (c2, rest) => some (nl ++ ws ++ d ++ c2, rest)
          | none => none
      let rec tryAll : Nat → Option (List Char × List Char)
        | 0 => none
        | k + 1 =>
          match tryK (k + 1) with
          | some res => some res
          | none => tryAll k
      match tryAll w.length with
      | some res => some res
      | none => some (nl, u1)

/-- The group-1 capture of `/^from:[\t ]?(.*(?:\r?\n\s+.*)*\r?\n)/mi`
(line 142) at the leftmost anchored `from:` line, or `none`. -/
def fromMatchNL (fuel : Nat) (u : List Char) : Option (List Char) :=
  match fuel with
  | 0 => none
  | fuel + 1 =>
    if startsWithCI "from:".data u then
      let u1 := skipOptWsChar (u.drop 5)
      let base := u1.takeWhile isDotChar
      match foldsThenNL (u.length + 1) (u1.dropWhile isDotChar) with
      | some (c, _) => some (base ++ c)
      | none =>
        match nextAnchor u with
        | none => none
        | some r => fromMatchNL fuel r
    else
      match nextAnchor u with
      | none => none
      | some r => fromMatchNL fuel r

/-- Greedy `(?:\r?\n\s+.*)*` with no trailing requirement (the fold
tail of the global `from:` rewrite, line 160): here plain step-wise
greed is exact, since nothing after the star can fail. -/
def foldsNoNL (fuel : Nat) (u : List Char) : List Char × List Char :=
  match fuel with
  | 0 => ([], u)
  | fuel + 1 =>
    match parseNL u with
    | none => ([], u)
    | some (nl, u1) =>
      let w := u1.takeWhile isWsChar
      if w.isEmpty then ([], u)
      else
        let after := u1.dropWhile isWsChar
        let d := after.takeWhile isDotChar
        let (c2, rest) := foldsNoNL fuel (after.dropWhile isDotChar)
        (nl ++ w ++ d ++ c2, rest)

/-- `from.replace(/<(.*)>/, '')` (line 161): remove the first segment
from a `<` through the last `>` reachable through dots after it. -/
def removeAngle (u : List Char) : List Char :=
  match u with
  | [] => []
  | c :: r =>
    if c = '<' then
      let d := r.takeWhile isDotChar
      let keep := (d.reverse.takeWhile (fun x => x ≠ '>')).reverse
      if keep.length = d.length then
        -- no '>' among the dots: this '<' has no match, keep scanning
        c :: removeAngle r
      else
        -- drop through the last '>' of the dot run, keep the tail as is
        keep ++ r.drop d.length
    else c :: removeAngle r

/-- JS `String.prototype.trim`. -/
def trimWs (u : List Char) : List Char :=
  ((u.dropWhile isWsChar).reverse.dropWhile isWsChar).reverse

/-- The replacement value of line 161:
`From: ${from.replace(/<(.*)>/, '').trim()} <noreply@DOMAIN>`. -/
def fromReplacement (domain : String) (capture : List Char) : List Char :=
  "From: ".data ++ trimWs (removeAngle capture) ++
    " <noreply@".data ++ domain.data ++ ">".data

/-- Global rewrite of every `from:` header line (lines 159-162).  The
`atStart` flag tracks whether the cursor is at a `^` anchor. -/
def replaceFromAll (fuel : Nat) (domain : String) (atStart : Bool)
    (u : List Char) : List Char :=
  match fuel with
  | 0 => u
  | fuel + 1 =>
    if atStart && startsWithCI "from:".data u then
      let afterKey := skipOptWsChar (u.drop 5)
      let base := afterKey.takeWhile isDotChar
      let (folds, rest) := foldsNoNL (u.length + 1) (afterKey.dropWhile isDotChar)
      let capture := base ++ folds
      let consumedLast : Option Char := (u.take (u.length - rest.length)).getLast?
      let atStart' := match consumedLast with
                      | some c => isTermChar c
                      | none => atStart
      fromReplacement domain capture ++ replaceFromAll fuel domain atStart' rest
    else
      match u with
      | [] => []
      | c :: r => c :: replaceFromAll fuel domain (isTermChar c) r

/-- Global rewrite of every `to:` line to the configured override
(line 165): match `^to:[\t ]?(.*)`, replace by `To: ${toEmail}`. -/
def replaceToAll (fuel : Nat) (toEmail : String) (atStart : Bool)
    (u : List Char) : List Char :=
  match fuel with
  | 0 => u
  | fuel + 1 =>
    if atStart && startsWithCI "to:".data u then
      let afterKey := skipOptWsChar (u.drop 3)
      let rest := afterKey.dropWhile isDotChar
      let consumedLast : Option Char := (u.take (u.length - rest.length)).getLast?
      let atStart' := match consumedLast with
                      | some c => isTermChar c
                      | none => atStart
      "To: ".data ++ toEmail.data ++ replaceToAll fuel toEmail atStart' rest
    else
      match u with
      | [] => []
      | c :: r => c :: replaceToAll fuel toEmail (isTermChar c) r

/-- Delete every `^key[\t ]?(.*)\r?\n` line (lines 168-170; the match
includes its terminator, so unterminated final lines stay). -/
def stripLineAll (fuel : Nat) (key : List Char) (atStart : Bool)
    (u : List Char) : List Char :=
  match fuel with
  | 0 => u
  | fuel + 1 =>
    if atStart && startsWithCI key u then
      let afterKey := skipOptWsChar (u.drop key.length)
      let afterLine := afterKey.dropWhile isDotChar
      match parseNL afterLine with
      | some (_, rest) => stripLineAll fuel key true rest
      | none =>
        match u with
        | [] => []
        | c :: r => c :: stripLineAll fuel key (isTermChar c) r
    else
      match u with
      | [] => []
      | c :: r => c :: stripLineAll fuel key (isTermChar c) r

/-- One DKIM fold line `\s+.*\r?\n`, whitespace tried longest first
(backtracking against the required terminator). -/
def dkimFold (u : List Char) : Option (List Char) :=
  let w := u.takeWhile isWsChar
  let rec tryK : Nat → Option (List Char)
    | 0 => none
    | k + 1 =>
      let after := u.drop (k + 1)
      let afterD := after.dropWhile isDotChar
      match parseNL afterD with
      | some (_, rest) => some rest
      | none => tryK k
  tryK w.length

/-- Fold lines of a DKIM block, repeatedly. -/
def dkimFolds (fuel : Nat) (u : List Char) : List Char :=
  match fuel with
  | 0 => u
  | fuel + 1 =>
    match dkimFold u with
    | some rest => dkimFolds fuel rest
    | none => u

/-- Delete every `^dkim-signature:[\t ]?.*\r?\n(\s+.*\r?\n)*` block
(line 171). -/
def stripDkimAll (fuel : Nat) (atStart : Bool) (u : List Char) : List Char :=
  match fuel with
  | 0 => u
  | fuel + 1 =>
    if atStart && startsWithCI "dkim-signature:".data u then
      let afterKey := skipOptWsChar (u.drop 15)
      let afterLine := afterKey.dropWhile isDotChar
      match parseNL afterLine with
      | some (_, rest) => stripDkimAll fuel true (dkimFolds (rest.length + 1) rest)
      | none =>
        match u with
        | [] => []
        | c :: r => c :: stripDkimAll fuel (isTermChar c) r
    else
      match u with
      | [] => []
      | c :: r => c :: stripDkimAll fuel (isTermChar c) r

/-- The full header rewrite chain (lines 141-171) applied to the header
segment. -/
def headerTransform (domain : String) (toEmail : Option String)
    (h : List Char) : List Char :=
  -- lines 141-156: add Reply-To when absent, from the From header
  let h1 :=
    if testLineStartCI (h.length + 1) "reply-to:".data h then h
    else
      match fromMatchNL (h.length + 1) h with
      | some capture =>
        if capture.isEmpty then h
        else h ++ "Reply-To: ".data ++ capture
      | none => h
  -- lines 158-162: rewrite every From line
  let h2 := replaceFromAll (h1.length + 1) domain true h1
  -- lines 164-166: optional To override
  let h3 := match toEmail with
            | some te => replaceToAll (h2.length + 1) te true h2
            | none => h2
  -- lines 168-171: strip Return-Path, Sender, Message-ID, DKIM blocks
  let h4 := stripLineAll (h3.length + 1) "return-path:".data true h3
  let h5 := stripLineAll (h4.length + 1) "sender:".data true h4
  let h6 := stripLineAll (h5.length + 1) "message-id:".data true h5
  stripDkimAll (h6.length + 1) true h6

/-- Stage 4 (lines 136-175): split, rewrite the header, reassemble.
When `emailData` is absent the optional chains leave `header`
undefined and `body` `''`, and the final template renders the string
`"undefined"`. -/
def processMessage (domain : String) (d : Data) : Except Err Data :=
  match d.emailData with
  | none => .ok { d with emailData := some "undefined" }
  | some s =>
    let (h, b) := headerBody s.data
    let newData := String.mk (headerTransform domain d.config.toEmail h ++ b)
    .ok { d with emailData := some newData }

/-! ### Stage 5: sendMessage (lines 180-212) -/

/-- The params object built for `SendRawEmailCommand` (lines 181-187). -/
structure SendParams where
  Destinations : Option (List String)
  Source : Option String
  RawMessage : String
  deriving DecidableEq, Repr

/-- The params `sendMessage` builds from the context. -/
def sendParams (d : Data) : SendParams :=
  { Destinations := d.recipients,
    Source := d.originalRecipient,
    RawMessage := d.emailData.getD "" }

/-- Stage 5: the SES collaborator accepts or rejects the send. -/
def sendMessage (ses : SendParams → Bool) (d : Data) : Except Err Data :=
  if ses (sendParams d) then .ok d else .error .sendError

/-! ### Pipeline driver (lines 226-268) -/

/-- The `for (const step of steps)` loop: each step's result feeds the
next; a thrown error aborts the loop. -/
def runSteps : List (Data → Except Err Data) → Data → Except Err Data
  | [], d => .ok d
  | s :: rest, d =>
    match s d with
    | .ok d' => runSteps rest d'
    | .error e => .error e

/-- The fresh context the handler builds (lines 239-247). -/
def initData (event : SESEvent) (config : Config) : Data :=
  { event := event, config := config }

/-- The generic failure message passed to the callback on any stage
error (line 266). -/
def genericFailure : String := "Error: Step returned error."

/-- The handler: runs the steps and finishes by calling the callback
with no argument on success or with the single generic error on any
raised error.  The model's result is the argument of that final
callback call (`none` = the success call). -/
def handler (steps : List (Data → Except Err Data)) (event : SESEvent)
    (config : Config) : Option String :=
  match runSteps steps (initData event config) with
  | .ok _ => none
  | .error _ => some genericFailure

/-- The default step sequence (lines 232-238), with the collaborators
each stage needs supplied explicitly. -/
def defaultSteps (parsedTable : Option FwdTable) (cb : Callback)
    (s3 : String → Option String) (keyPref : String) (domain : String)
    (ses : SendParams → Bool) : List (Data → Except Err Data) :=
  [parseEvent, transformRecipients parsedTable cb,
   fetchMessage s3 keyPref, processMessage domain, sendMessage ses]

/-! ## Spec-side definitions

These definitions follow the words of the spec/claims (not the source)
and are compared with the source-derived definitions above. -/

/-- Domain portion of a key per the spec: the substring from the last
`@`, inclusive; undefined when the key has no `@`. -/
def domainAt (k : String) : Option String :=
  (lastAtPos k.data).map (fun p => String.mk (k.data.drop p))

/-- Local part of a key per the spec: the substring before the last
`@`; the whole key when it has no `@`. -/
def localAt (k : String) : String :=
  match lastAtPos k.data with
  | some p => String.mk (k.data.take p)
  | none => k

/-- Claim C2's resolution rules, verbatim: exact match, then domain
portion, then local part, then the catch-all `"@"`, first success
wins. -/
def resolveSpec (t : FwdTable) (k : String) : Option (List String) :=
  (tblGet t k).or
    ((match domainAt k with
      | some dm => tblGet t dm
      | none => none).or
      ((tblGet t (localAt k)).or (tblGet t "@")))

/-- Claim C2 as amended: the local-part rule only applies when the
local part is nonempty (the source guards it with JS truthiness). -/
def resolveSpecAmended (t : FwdTable) (k : String) : Option (List String) :=
  (tblGet t k).or
    ((match domainAt k with
      | some dm => tblGet t dm
      | none => none).or
      (((if localAt k ≠ "" then tblGet t (localAt k) else none)).or
        (tblGet t "@")))

/-- The envelope sender the spec describes: the last recipient in
iteration order for which a forwarding rule matches (last writer
wins), `none` when no recipient matches. -/
def lastMatching (t : FwdTable) (rs : List String) : Option String :=
  rs.foldl
    (fun acc r => if (resolveKey t (normalize r)).isSome then some r else acc)
    none

/-- Claim C4's split rule, verbatim: the header is the maximal run of
non-blank lines from the start (a blank line contains only optional
whitespace — an all-whitespace or empty line); the body is everything
from the first blank line onward; with no blank-line boundary the whole
message is the header and the body is empty.  Lines are `\n`-terminated
(a preceding `\r` belongs to the terminator and is itself whitespace,
so the blank test is unaffected).  Fuel counts lines; `claimSplit`
passes enough. -/
def claimSplitF : Nat → List Char → List Char × List Char
  | 0, s => (s, [])
  | fuel + 1, s =>
    let line := s.takeWhile (fun c => !(c = '\n'))
    if line.all isWsChar then ([], s)
    else
      match s.dropWhile (fun c => !(c = '\n')) with
      | [] => (s, [])
      | _ :: r =>
        let (h, b) := claimSplitF fuel r
        (line ++ '\n' :: h, b)

/-- Claim C4's split rule (see `claimSplitF`). -/
def claimSplit (s : List Char) : List Char × List Char :=
  claimSplitF (s.length + 1) s

/-- The amended C4 description for LF-only messages: the run of
nonempty lines before the first empty line and the remainder after
that empty line's `\n`; `none` when the message has no empty line (or
ends in an unterminated line before reaching one). -/
def lfSplitF : Nat → List Char → Option (List Char × List Char)
  | 0, _ => none
  | fuel + 1, s =>
    let line := s.takeWhile (fun c => !(c = '\n'))
    match s.dropWhile (fun c => !(c = '\n')) with
    | [] => none
    | _ :: r =>
      if line.isEmpty then some ([], r)
      else (lfSplitF fuel r).map (fun p => (line ++ '\n' :: p.1, p.2))

/-- The amended C4 description (see `lfSplitF`). -/
def lfSplitSpec (s : List Char) : Option (List Char × List Char) :=
  lfSplitF (s.length + 1) s

/-- Messages without `\r`, U+2028 or U+2029: `\n` is the only line
terminator. -/
def LFonly (s : List Char) : Prop :=
  ∀ c ∈ s, c ≠ '\r' ∧ c.toNat ≠ 0x2028 ∧ c.toNat ≠ 0x2029

/-- Number of `@` characters in an address (used to state the amended
idempotence claim C3). -/
def atCount (s : String) : Nat := s.data.count '@'

/-- Proof-side view of the one replacement `stripPlusL` performs on a
string with a single `@` at a known position: the prefix of the
characters before the `@` that survives — everything up to the first
`+` whose following prefix-segment is terminator-free (that `+` starts
the replaced match), or the whole prefix when no such `+` exists. -/
def stripA : List Char → List Char
  | [] => []
  | c :: r =>
    if c = '+' && r.all (fun x => !isTermChar x) then []
    else c :: stripA r

/-! ## Shared concrete fixtures -/

/-- A valid one-record notification with one recipient. -/
def ev1 : SESEvent :=
  { Records := [{ eventSource := "aws:ses", eventVersion := "1.0",
                  ses := { mail := { messageId := "m1" },
                           receipt := { recipients := ["x@y.com"] } } }] }

/-- An empty configuration (no `toEmail` override). -/
def cfg1 : Config := {}

/-- A concrete completion callback returning a fresh default context
(the Lambda runtime's callback return value is outside the source;
any concrete value exhibits the driver's behavior). -/
def cb1 : Callback := fun _ => initData ev1 cfg1

/-! ## Helper lemmas -/

theorem parseNL_cases {u nl r : List Char} (h : parseNL u = some (nl, r)) :
    (u = '\n' :: r ∧ nl = ['\n']) ∨ (u = '\r' :: '\n' :: r ∧ nl = ['\r', '\n']) := by
  unfold parseNL at h
  split at h
  · simp only [Option.some.injEq, Prod.mk.injEq] at h
    obtain ⟨h1, h2⟩ := h
    subst h1; subst h2
    exact Or.inl ⟨rfl, rfl⟩
  · simp only [Option.some.injEq, Prod.mk.injEq] at h
    obtain ⟨h1, h2⟩ := h
    subst h1; subst h2
    exact Or.inr ⟨rfl, rfl⟩
  · exact absurd h (by simp)

/-- Inversion of a successful `parseLine`. -/
theorem parseLine_inv {u l r : List Char} (h : parseLine u = some (l, r)) :
    ¬(u.takeWhile isDotChar).isEmpty = true ∧
    ∃ nl, parseNL (u.dropWhile isDotChar) = some (nl, r) ∧
          l = u.takeWhile isDotChar ++ nl := by
  unfold parseLine at h
  by_cases he : (u.takeWhile isDotChar).isEmpty
  · simp [he] at h
  · refine ⟨he, ?_⟩
    cases hnl : parseNL (u.dropWhile isDotChar) with
    | none => rw [hnl] at h; exact absurd h (by simp)
    | some p =>
      obtain ⟨nl, r'⟩ := p
      rw [hnl] at h
      simp only [he, Bool.false_eq_true, if_false, Option.some.injEq,
        Prod.mk.injEq] at h
      obtain ⟨h1, h2⟩ := h
      subst h2
      exact ⟨nl, rfl, h1.symm⟩

/-- Lemma used for fuel adequacy of the line run. -/
theorem parseLine_shrink {u l r : List Char} (h : parseLine u = some (l, r)) :
    r.length < u.length := by
  have hlen : (u.takeWhile isDotChar).length + (u.dropWhile isDotChar).length
      = u.length := by
    rw [← List.length_append, List.takeWhile_append_dropWhile]
  obtain ⟨he, nl, hnl, -⟩ := parseLine_inv h
  have hpos : 0 < (u.takeWhile isDotChar).length := by
    cases hw : u.takeWhile isDotChar with
    | nil => rw [hw] at he; simp at he
    | cons a t => simp [hw]
  rcases parseNL_cases hnl with ⟨heq, -⟩ | ⟨heq, -⟩ <;>
    rw [heq] at hlen <;> simp only [List.length_cons] at hlen <;> omega

/-- The rest of a successful `parseLine` only contains characters of
the input. -/
theorem parseLine_rest_subset {u l r : List Char}
    (h : parseLine u = some (l, r)) : r ⊆ u := by
  obtain ⟨-, nl, hnl, -⟩ := parseLine_inv h
  have hsub : r ⊆ u.dropWhile isDotChar := by
    rcases parseNL_cases hnl with ⟨heq, -⟩ | ⟨heq, -⟩ <;> rw [heq]
    · exact List.subset_cons_self _ _
    · exact List.Subset.trans (List.subset_cons_self _ _)
        (List.subset_cons_self _ _)
  exact List.Subset.trans hsub ((List.dropWhile_sublist _).subset)

theorem lineRunF_stable (fuel : Nat) :
    ∀ (fuel' : Nat) (u : List Char), u.length ≤ fuel → u.length ≤ fuel' →
      lineRunF fuel u = lineRunF fuel' u := by
  induction fuel with
  | zero =>
    intro fuel' u h h'
    have : u = [] := List.length_eq_zero.mp (Nat.le_zero.mp h)
    subst this
    cases fuel' with
    | zero => rfl
    | succ f => simp [lineRunF, parseLine]
  | succ f ih =>
    intro fuel' u h h'
    cases fuel' with
    | zero =>
      have : u = [] := List.length_eq_zero.mp (Nat.le_zero.mp h')
      subst this
      simp [lineRunF, parseLine]
    | succ f' =>
      simp only [lineRunF]
      cases hp : parseLine u with
      | none => rfl
      | some p =>
        obtain ⟨l, r⟩ := p
        have hr := parseLine_shrink hp
        dsimp only
        rw [ih f' r (by omega) (by omega)]

/-- The recursion equation of `lineRun`: one line at a time. -/
theorem lineRun_eq (u : List Char) :
    lineRun u =
      match parseLine u with
      | none => ([], u)
      | some (l, r) =>
        let (g, rest) := lineRun r
        (l ++ g, rest) := by
  unfold lineRun
  cases hu : u.length with
  | zero =>
    have : u = [] := List.length_eq_zero.mp hu
    subst this
    simp [lineRunF, parseLine]
  | succ n =>
    simp only [lineRunF]
    cases hp : parseLine u with
    | none => rfl
    | some p =>
      obtain ⟨l, r⟩ := p
      have hr := parseLine_shrink hp
      dsimp only
      rw [lineRunF_stable n r.length r (by omega) (by omega)]

theorem nextAnchor_shrink {u r : List Char} (h : nextAnchor u = some r) :
    r.length < u.length := by
  induction u with
  | nil => simp [nextAnchor] at h
  | cons c t ih =>
    unfold nextAnchor at h
    by_cases hc : isTermChar c
    · simp only [hc, if_true, Option.some.injEq] at h
      subst h; simp
    · simp only [hc, if_false] at h
      have := ih h
      simp; omega

theorem scanMatchF_stable (fuel : Nat) :
    ∀ (fuel' : Nat) (u : List Char), u.length < fuel → u.length < fuel' →
      scanMatchF fuel u = scanMatchF fuel' u := by
  induction fuel with
  | zero => intro fuel' u h h'; omega
  | succ f ih =>
    intro fuel' u h h'
    cases fuel' with
    | zero => omega
    | succ f' =>
      simp only [scanMatchF]
      cases matchAt u with
      | some m => rfl
      | none =>
        cases ha : nextAnchor u with
        | none => rfl
        | some r =>
          have hr := nextAnchor_shrink ha
          exact ih f' r (by omega) (by omega)

/-- The recursion equation of `scanMatch`: try the current anchor, then
the next one. -/
theorem scanMatch_eq (u : List Char) :
    scanMatch u =
      match matchAt u with
      | some m => some m
      | none =>
        match nextAnchor u with
        | none => none
        | some r => scanMatch r := by
  unfold scanMatch
  simp only [scanMatchF]
  cases matchAt u with
  | some m => rfl
  | none =>
    cases ha : nextAnchor u with
    | none => rfl
    | some r =>
      have hr := nextAnchor_shrink ha
      exact scanMatchF_stable (u.length) (r.length + 1) r (by omega) (by omega)

theorem takeWhile_congr {p q : Char → Bool} :
    ∀ {l : List Char}, (∀ a ∈ l, p a = q a) →
      l.takeWhile p = l.takeWhile q := by
  intro l
  induction l with
  | nil => intro _; rfl
  | cons c r ih =>
    intro h
    have hc := h c (by simp)
    simp only [List.takeWhile_cons, hc]
    by_cases hq : q c
    · simp only [hq, if_true]
      rw [ih (fun a ha => h a (by simp [ha]))]
    · simp [hq]

theorem dropWhile_congr {p q : Char → Bool} :
    ∀ {l : List Char}, (∀ a ∈ l, p a = q a) →
      l.dropWhile p = l.dropWhile q := by
  intro l
  induction l with
  | nil => intro _; rfl
  | cons c r ih =>
    intro h
    have hc := h c (by simp)
    simp only [List.dropWhile_cons, hc]
    by_cases hq : q c
    · simp only [hq, if_true]
      exact ih (fun a ha => h a (by simp [ha]))
    · simp [hq]

theorem dropWhile_head_false {p : Char → Bool} :
    ∀ {u : List Char} {c : Char} {r : List Char},
      u.dropWhile p = c :: r → p c = false := by
  intro u
  induction u with
  | nil => intro c r h; simp [List.dropWhile] at h
  | cons a t ih =>
    intro c r h
    rw [List.dropWhile_cons] at h
    by_cases hp : p a
    · rw [if_pos hp] at h
      exact ih h
    · rw [if_neg hp] at h
      obtain ⟨h1, -⟩ := List.cons.injEq .. ▸ h
      injection h with h1 h2
      subst h1
      exact Bool.eq_false_iff.mpr hp

theorem takeWhile_ne_nil_head {p : Char → Bool} {u : List Char}
    (h : ¬(u.takeWhile p).isEmpty = true) :
    ∃ c r, u = c :: r ∧ p c = true := by
  cases u with
  | nil => simp [List.takeWhile] at h
  | cons c r =>
    rw [List.takeWhile_cons] at h
    by_cases hp : p c
    · exact ⟨c, r, rfl, hp⟩
    · rw [if_neg hp] at h
      simp at h

/-- LF-only facts about the character classes. -/
theorem lf_isTerm {c : Char} (h1 : c ≠ '\r') (h2 : c.toNat ≠ 0x2028)
    (h3 : c.toNat ≠ 0x2029) : isTermChar c = decide (c = '\n') := by
  simp [isTermChar, h1, h2, h3]

theorem lf_isDot {c : Char} (h1 : c ≠ '\r') (h2 : c.toNat ≠ 0x2028)
    (h3 : c.toNat ≠ 0x2029) : isDotChar c = !(decide (c = '\n')) := by
  simp [isDotChar, lf_isTerm h1 h2 h3]

/-- Length bound for the tail of a nonempty `dropWhile`. -/
theorem dropWhile_tail_length {p : Char → Bool} {s r : List Char} {c : Char}
    (h : s.dropWhile p = c :: r) : r.length < s.length := by
  have hle : (s.dropWhile p).length ≤ s.length :=
    (List.dropWhile_sublist p).length_le
  rw [h] at hle
  simp only [List.length_cons] at hle
  omega

theorem LFonly_subset {u t : List Char} (h : LFonly u) (hsub : t ⊆ u) :
    LFonly t := fun c hc => h c (hsub hc)

theorem nextAnchor_eq (u : List Char) :
    nextAnchor u =
      match u.dropWhile (fun c => !(isTermChar c)) with
      | [] => none
      | _ :: r => some r := by
  induction u with
  | nil => rfl
  | cons c rest ih =>
    unfold nextAnchor
    by_cases hc : isTermChar c
    · simp [hc, List.dropWhile_cons]
    · simp [hc, List.dropWhile_cons, ih]

theorem lfSplitF_stable (fuel : Nat) :
    ∀ (fuel' : Nat) (s : List Char), s.length < fuel → s.length < fuel' →
      lfSplitF fuel s = lfSplitF fuel' s := by
  induction fuel with
  | zero => intro fuel' s h h'; omega
  | succ f ih =>
    intro fuel' s h h'
    cases fuel' with
    | zero => omega
    | succ f' =>
      simp only [lfSplitF]
      cases hdw : s.dropWhile (fun c => !(c = '\n')) with
      | nil => rfl
      | cons c r =>
        have hle : r.length < s.length := dropWhile_tail_length hdw
        by_cases hl : (s.takeWhile (fun c => !(c = '\n'))).isEmpty
        · simp [hl]
        · simp only [hl, Bool.false_eq_true, if_false]
          rw [ih f' r (by omega) (by omega)]

/-- The recursion equation of `lfSplitSpec`: one line at a time. -/
theorem lfSplit_eq (s : List Char) :
    lfSplitSpec s =
      match s.dropWhile (fun c => !(c = '\n')) with
      | [] => none
      | _ :: r =>
        if (s.takeWhile (fun c => !(c = '\n'))).isEmpty then some ([], r)
        else (lfSplitSpec r).map
          (fun p => (s.takeWhile (fun c => !(c = '\n')) ++ '\n' :: p.1, p.2)) := by
  unfold lfSplitSpec
  conv_lhs => rw [lfSplitF]
  cases hdw : s.dropWhile (fun c => !(c = '\n')) with
  | nil => rfl
  | cons c r =>
    have hle : r.length < s.length := dropWhile_tail_length hdw
    by_cases hl : (s.takeWhile (fun c => !(c = '\n'))).isEmpty
    · simp [hl]
    · simp only [hl, Bool.false_eq_true, if_false]
      rw [lfSplitF_stable s.length (r.length + 1) r (by omega) (by omega)]

/-- Unfolding a match step through one consumed line. -/
theorem matchAt_step {u l r : List Char} (hp : parseLine u = some (l, r)) :
    matchAt u = (matchAt r).map (fun p => (l ++ p.1, p.2)) := by
  unfold matchAt
  rw [lineRun_eq, hp]
  dsimp only
  cases hnl : parseNL (lineRun r).2 with
  | none => rfl
  | some p =>
    obtain ⟨nl, rest⟩ := p
    rfl

/-- Auxiliary head fact: a successful `parseNL` needs `\n` or `\r`. -/
theorem parseNL_eq_none {c : Char} {rest : List Char}
    (h1 : c ≠ '\n') (h2 : c ≠ '\r') : parseNL (c :: rest) = none := by
  unfold parseNL
  split
  · rename_i heq
    injection heq with hc
    exact absurd hc h1
  · rename_i heq
    injection heq with hc
    exact absurd hc h2
  · rfl

/-- The stop position of the line run only contains characters of the
input. -/
theorem lineRun_rest_subset (n : Nat) :
    ∀ u : List Char, u.length ≤ n → (lineRun u).2 ⊆ u := by
  induction n with
  | zero =>
    intro u h
    have : u = [] := List.length_eq_zero.mp (Nat.le_zero.mp h)
    subst this
    intro c hc
    simpa [lineRun, lineRunF] using hc
  | succ m ih =>
    intro u h
    rw [lineRun_eq]
    cases hp : parseLine u with
    | none => exact fun c hc => hc
    | some p =>
      obtain ⟨l, r⟩ := p
      dsimp only
      have hr := parseLine_shrink hp
      exact List.Subset.trans (ih r (by omega)) (parseLine_rest_subset hp)

/-- Main split characterization, LF-only, at one anchored position:
the anchored match is exactly the first-empty-line description. -/
theorem matchAt_lf (n : Nat) :
    ∀ u : List Char, u.length ≤ n → LFonly u →
      matchAt u = (lfSplitSpec u).map
        (fun p => (p.1, '\n' :: takeToLastWs p.2)) := by
  induction n with
  | zero =>
    intro u h _
    have : u = [] := List.length_eq_zero.mp (Nat.le_zero.mp h)
    subst this
    rfl
  | succ m ih =>
    intro u hlen hLF
    have hTW : u.takeWhile isDotChar = u.takeWhile (fun c => !(c = '\n')) := by
      refine takeWhile_congr (fun a ha => ?_)
      obtain ⟨x1, x2, x3⟩ := hLF a ha
      simp [lf_isDot x1 x2 x3]
    have hDW : u.dropWhile isDotChar = u.dropWhile (fun c => !(c = '\n')) := by
      refine dropWhile_congr (fun a ha => ?_)
      obtain ⟨x1, x2, x3⟩ := hLF a ha
      simp [lf_isDot x1 x2 x3]
    cases hp : parseLine u with
    | none =>
      by_cases he : (u.takeWhile isDotChar).isEmpty
      · -- empty dot run: u is empty or starts with a newline
        cases hu : u with
        | nil => subst hu; rfl
        | cons c rest =>
          subst hu
          have hcdot : isDotChar c = false := by
            by_contra hcd
            rw [List.takeWhile_cons] at he
            simp only [Bool.not_eq_false] at hcd
            rw [if_pos hcd] at he
            simp at he
          have hcn : c = '\n' := by
            obtain ⟨x1, x2, x3⟩ := hLF c (by simp)
            rw [lf_isDot x1 x2 x3] at hcdot
            simpa using hcdot
          subst hcn
          -- matchAt: empty run, then the empty line matches at once
          have hlr : lineRun ('\n' :: rest) = ([], '\n' :: rest) := by
            rw [lineRun_eq, hp]
          unfold matchAt
          rw [hlr]
          rw [lfSplit_eq]
          simp [List.dropWhile_cons, List.takeWhile_cons, parseNL]
      · -- nonempty dot run not followed by \r?\n: with LF-only input the
        -- run must have hit the unterminated end of the message
        obtain ⟨c, rest, hu, hcd⟩ := takeWhile_ne_nil_head he
        have hdwnil : u.dropWhile isDotChar = [] := by
          cases hdw : u.dropWhile isDotChar with
          | nil => rfl
          | cons c2 r2 =>
            exfalso
            have hc2 : isDotChar c2 = false := dropWhile_head_false hdw
            have hc2mem : c2 ∈ u := by
              have : c2 ∈ u.dropWhile isDotChar := by rw [hdw]; simp
              exact (List.dropWhile_sublist isDotChar).subset this
            obtain ⟨x1, x2, x3⟩ := hLF c2 hc2mem
            rw [lf_isDot x1 x2 x3] at hc2
            have hc2n : c2 = '\n' := by simpa using hc2
            subst hc2n
            -- then parseLine would have succeeded
            unfold parseLine at hp
            simp only [hdw] at hp
            rw [show parseNL ('\n' :: r2) = some (['\n'], r2) from rfl] at hp
            simp [he] at hp
        have hlr : lineRun u = ([], u) := by rw [lineRun_eq, hp]
        have hcn : c ≠ '\n' ∧ c ≠ '\r' := by
          constructor
          · intro hc
            subst hc
            simp [isDotChar, isTermChar] at hcd
          · intro hc
            subst hc
            simp [isDotChar, isTermChar] at hcd
        unfold matchAt
        rw [hlr]
        dsimp only
        rw [lfSplit_eq, ← hDW, hdwnil, hu, parseNL_eq_none hcn.1 hcn.2]
        rfl
    | some p =>
      obtain ⟨l, r⟩ := p
      obtain ⟨he, nl, hnl, hl⟩ := parseLine_inv hp
      have hshr := parseLine_shrink hp
      have hLFr : LFonly r := LFonly_subset hLF (parseLine_rest_subset hp)
      -- with LF-only input the terminator is a bare \n
      have hdw : u.dropWhile isDotChar = '\n' :: r ∧ nl = ['\n'] := by
        rcases parseNL_cases hnl with ⟨heq, hnl'⟩ | ⟨heq, hnl'⟩
        · exact ⟨heq, hnl'⟩
        · exfalso
          have : '\r' ∈ u := by
            have : '\r' ∈ u.dropWhile isDotChar := by rw [heq]; simp
            exact (List.dropWhile_sublist isDotChar).subset this
          exact (hLF '\r' this).1 rfl
      rw [matchAt_step hp, ih r (by omega) hLFr]
      rw [lfSplit_eq u, ← hDW, hdw.1]
      have hline : ¬(u.takeWhile (fun c => !(c = '\n'))).isEmpty = true := by
        rw [← hTW]; exact he
      simp only [hline, Bool.false_eq_true, if_false]
      rw [Option.map_map, Option.map_map]
      cases hspec : lfSplitSpec r with
      | none => rfl
      | some q =>
        obtain ⟨qh, qr⟩ := q
        simp only [Option.map_some', Function.comp_apply]
        rw [hl, hdw.2, ← hTW]
        simp [List.append_assoc]

/-- When the first-empty-line description finds nothing, no anchored
position of the message matches. -/
theorem scanMatch_lf_none (n : Nat) :
    ∀ u : List Char, u.length ≤ n → LFonly u → lfSplitSpec u = none →
      scanMatch u = none := by
  induction n with
  | zero =>
    intro u h _ _
    have : u = [] := List.length_eq_zero.mp (Nat.le_zero.mp h)
    subst this
    rfl
  | succ m ih =>
    intro u hlen hLF hnone
    rw [scanMatch_eq]
    have hM : matchAt u = none := by
      rw [matchAt_lf u.length u le_rfl hLF, hnone]
      rfl
    rw [hM]
    have hDW : u.dropWhile (fun c => !(isTermChar c))
        = u.dropWhile (fun c => !(c = '\n')) := by
      refine dropWhile_congr (fun a ha => ?_)
      obtain ⟨x1, x2, x3⟩ := hLF a ha
      rw [lf_isTerm x1 x2 x3]
    cases ha : nextAnchor u with
    | none => rfl
    | some r =>
      rw [nextAnchor_eq, hDW] at ha
      cases hdw : u.dropWhile (fun c => !(c = '\n')) with
      | nil => rw [hdw] at ha; exact absurd ha (by simp)
      | cons c r2 =>
        rw [hdw] at ha
        injection ha with ha2
        have ha3 := ha2.symm
        subst ha3
        have hrsub : r ⊆ u := by
          refine List.Subset.trans ?_
            ((List.dropWhile_sublist (fun c => !(c = '\n'))).subset)
          rw [hdw]
          exact List.subset_cons_self _ _
        have hrlen : r.length < u.length := dropWhile_tail_length hdw
        have hrnone : lfSplitSpec r = none := by
          rw [lfSplit_eq, hdw] at hnone
          by_cases hline : (u.takeWhile (fun c => !(c = '\n'))).isEmpty
          · simp [hline] at hnone
          · simp only [hline, Bool.false_eq_true, if_false] at hnone
            exact Option.map_eq_none.mp hnone
        exact ih r (by omega) (LFonly_subset hLF hrsub) hrnone

theorem toLower_of_upper (c : Char) (h : c.toNat ≥ 65 ∧ c.toNat ≤ 90) :
    c.toLower = Char.ofNat (c.toNat + 32) := by
  unfold Char.toLower
  simp [h]

theorem toLower_of_other (c : Char) (h : ¬(c.toNat ≥ 65 ∧ c.toNat ≤ 90)) :
    c.toLower = c := by
  unfold Char.toLower
  simp [h]

theorem toLower_toLower (c : Char) : c.toLower.toLower = c.toLower := by
  by_cases h : c.toNat ≥ 65 ∧ c.toNat ≤ 90
  · rw [toLower_of_upper c h]
    obtain ⟨h1, h2⟩ := h
    generalize c.toNat = n at h1 h2
    interval_cases n <;> decide
  · rw [toLower_of_other c h]
    rw [toLower_of_other c h]

theorem toLower_at_iff (c : Char) : c.toLower = '@' ↔ c = '@' := by
  by_cases h : c.toNat ≥ 65 ∧ c.toNat ≤ 90
  · constructor
    · intro hc
      rw [toLower_of_upper c h] at hc
      obtain ⟨h1, h2⟩ := h
      exfalso
      generalize c.toNat = n at h1 h2 hc
      interval_cases n <;> exact absurd hc (by decide)
    · intro hc
      subst hc
      exact absurd h (by decide)
  · rw [toLower_of_other c h]

theorem count_at_map_toLower (l : List Char) :
    (l.map Char.toLower).count '@' = l.count '@' := by
  induction l with
  | nil => rfl
  | cons c r ih =>
    simp only [List.map_cons, List.count_cons, ih]
    by_cases hc : c = '@'
    · subst hc
      rw [show Char.toLower '@' = '@' from by decide]
    · have hne : Char.toLower c ≠ '@' := fun hh => hc ((toLower_at_iff c).mp hh)
      simp [hc, hne]

theorem map_id_of_fixed {f : Char → Char} :
    ∀ {l : List Char}, (∀ c ∈ l, f c = c) → l.map f = l := by
  intro l
  induction l with
  | nil => intro _; rfl
  | cons c r ih =>
    intro h
    simp only [List.map_cons]
    rw [h c (by simp), ih (fun a ha => h a (by simp [ha]))]

theorem findAtSign_no_at {l : List Char} (h : '@' ∉ l) : findAtSign l = none := by
  induction l with
  | nil => rfl
  | cons c r ih =>
    have hc : ¬(c = '@') := fun hh => h (hh ▸ List.mem_cons_self c r)
    unfold findAtSign
    simp only [hc, if_false]
    by_cases ht : isTermChar c
    · simp [ht]
    · simp only [ht, Bool.false_eq_true, if_false]
      exact ih (fun hh => h (List.mem_cons_of_mem c hh))

theorem findAtSign_subset {l r : List Char} (h : findAtSign l = some r) :
    r ⊆ l := by
  induction l generalizing r with
  | nil => simp [findAtSign] at h
  | cons c t ih =>
    unfold findAtSign at h
    by_cases hc : c = '@'
    · simp only [hc, if_true, Option.some.injEq] at h
      subst h
      exact List.subset_cons_self _ _
    · simp only [hc, if_false] at h
      by_cases ht : isTermChar c
      · simp [ht] at h
      · simp only [ht, Bool.false_eq_true, if_false] at h
        exact List.Subset.trans (ih h) (List.subset_cons_self _ _)

theorem stripPlus_no_at {l : List Char} (h : '@' ∉ l) : stripPlusL l = l := by
  induction l with
  | nil => rfl
  | cons c r ih =>
    have htail : '@' ∉ r := fun hh => h (List.mem_cons_of_mem c hh)
    unfold stripPlusL
    by_cases hc : c = '+'
    · simp only [hc, if_true]
      rw [findAtSign_no_at htail]
      rw [ih htail]
    · simp only [hc, if_false]
      rw [ih htail]

theorem stripPlus_chars {l : List Char} :
    ∀ c ∈ stripPlusL l, c ∈ l ∨ c = '@' := by
  induction l with
  | nil => intro c hc; simp [stripPlusL] at hc
  | cons d r ih =>
    intro c hc
    unfold stripPlusL at hc
    by_cases hd : d = '+'
    · simp only [hd, if_true] at hc
      cases hfa : findAtSign r with
      | some rest =>
        rw [hfa] at hc
        rcases List.mem_cons.mp hc with h1 | h1
        · exact Or.inr h1
        · exact Or.inl (List.mem_cons_of_mem d (findAtSign_subset hfa h1))
      | none =>
        rw [hfa] at hc
        rcases List.mem_cons.mp hc with h1 | h1
        · refine Or.inl ?_
          rw [h1, ← hd]
          exact List.mem_cons_self d r
        · rcases ih c h1 with h2 | h2
          · exact Or.inl (List.mem_cons_of_mem d h2)
          · exact Or.inr h2
    · simp only [hd, if_false] at hc
      rcases List.mem_cons.mp hc with h1 | h1
      · exact Or.inl (h1 ▸ List.mem_cons_self d r)
      · rcases ih c h1 with h2 | h2
        · exact Or.inl (List.mem_cons_of_mem d h2)
        · exact Or.inr h2

theorem findAtSign_append {u v : List Char} (h : '@' ∉ u) :
    findAtSign (u ++ '@' :: v)
      = if u.all (fun c => !isTermChar c) then some v else none := by
  induction u with
  | nil => simp [findAtSign]
  | cons c r ih =>
    have hc : ¬(c = '@') := fun hh => h (hh ▸ List.mem_cons_self c r)
    have htail : '@' ∉ r := fun hh => h (List.mem_cons_of_mem c hh)
    simp only [List.cons_append]
    unfold findAtSign
    simp only [hc, if_false, List.all_cons]
    by_cases ht : isTermChar c
    · simp [ht]
    · simp only [ht, Bool.false_eq_true, if_false, Bool.not_false,
        Bool.true_and]
      exact ih htail

theorem stripA_subset : ∀ {u : List Char}, stripA u ⊆ u := by
  intro u
  induction u with
  | nil => exact fun c hc => hc
  | cons c r ih =>
    unfold stripA
    by_cases hm : (c = '+' && r.all fun x => !isTermChar x) = true
    · simp only [hm, if_true]
      exact List.nil_subset _
    · simp only [hm, if_false]
      exact List.cons_subset_cons c ih

theorem stripA_term_preserved {u : List Char}
    (h : ∃ c ∈ u, isTermChar c = true) :
    ∃ c ∈ stripA u, isTermChar c = true := by
  induction u with
  | nil => simpa using h
  | cons c r ih =>
    unfold stripA
    by_cases hm : (c = '+' && r.all fun x => !isTermChar x) = true
    · exfalso
      obtain ⟨d, hd, hdt⟩ := h
      simp only [Bool.and_eq_true, decide_eq_true_eq, List.all_eq_true] at hm
      rcases List.mem_cons.mp hd with h1 | h1
      · subst h1
        rw [hm.1] at hdt
        simp [isTermChar] at hdt
      · have := hm.2 d h1
        rw [hdt] at this
        simp at this
    · simp only [hm, if_false]
      obtain ⟨d, hd, hdt⟩ := h
      rcases List.mem_cons.mp hd with h1 | h1
      · exact ⟨c, List.mem_cons_self _ _, h1 ▸ hdt⟩
      · obtain ⟨e, he, het⟩ := ih ⟨d, h1, hdt⟩
        exact ⟨e, List.mem_cons_of_mem c he, het⟩

/-- The single replacement on a one-`@` string keeps the `stripA`
prefix, the `@`, and the untouched tail. -/
theorem stripPlus_one_at {u v : List Char} (hu : '@' ∉ u) (hv : '@' ∉ v) :
    stripPlusL (u ++ '@' :: v) = stripA u ++ '@' :: v := by
  induction u with
  | nil =>
    simp only [List.nil_append, stripA]
    unfold stripPlusL
    simp only [show ¬('@' = '+') from by decide, if_false]
    rw [stripPlus_no_at hv]
  | cons c r ih =>
    have htail : '@' ∉ r := fun hh => hu (List.mem_cons_of_mem c hh)
    simp only [List.cons_append]
    by_cases hc : c = '+'
    · subst hc
      unfold stripPlusL
      simp only [if_pos rfl]
      rw [findAtSign_append htail]
      by_cases hterm : r.all (fun x => !isTermChar x)
      · rw [if_pos hterm]
        simp [stripA, hterm]
      · rw [if_neg hterm]
        rw [ih htail]
        simp [stripA, hterm]
    · unfold stripPlusL
      rw [if_neg hc]
      rw [ih htail]
      simp [stripA, hc]

theorem stripA_stripA : ∀ {u : List Char}, stripA (stripA u) = stripA u := by
  intro u
  induction u with
  | nil => rfl
  | cons c r ih =>
    by_cases hm : (c = '+' && r.all fun x => !isTermChar x) = true
    · simp [stripA, hm]
    · have hstep : stripA (c :: r) = c :: stripA r := by
        simp [stripA, hm]
      rw [hstep]
      have hm2 : ¬(c = '+' && (stripA r).all fun x => !isTermChar x) = true := by
        intro hh
        simp only [Bool.and_eq_true, decide_eq_true_eq, List.all_eq_true]
          at hh hm
        have hnall : ¬ ∀ x ∈ r, (!isTermChar x) = true :=
          fun hall => hm ⟨hh.1, hall⟩
        push_neg at hnall
        obtain ⟨d, hd, hdt'⟩ := hnall
        have hdt : isTermChar d = true := by simpa using hdt'
        obtain ⟨e, he, het⟩ := stripA_term_preserved ⟨d, hd, hdt⟩
        have := hh.2 e he
        rw [het] at this
        simp at this
      have hstep2 : stripA (c :: stripA r) = c :: stripA (stripA r) := by
        simp [stripA, hm2]
      rw [hstep2, ih]

/-- With at most one `@`, a second pass of the replacement finds
nothing new to strip. -/
theorem stripPlus_idem_of_count {m : List Char} (h : m.count '@' ≤ 1) :
    stripPlusL (stripPlusL m) = stripPlusL m := by
  by_cases hat : '@' ∈ m
  · have hpos : 0 < m.count '@' := List.count_pos_iff.mpr hat
    have h1 : m.count '@' = 1 := by omega
    have hdec := List.takeWhile_append_dropWhile (fun c => !(c = '@')) m
    have hne : m.dropWhile (fun c => !(c = '@')) ≠ [] := by
      intro hnil
      rw [List.dropWhile_eq_nil_iff] at hnil
      have := hnil '@' hat
      simp at this
    cases hdw : m.dropWhile (fun c => !(c = '@')) with
    | nil => exact absurd hdw hne
    | cons c v =>
      have hchead : c = '@' := by
        have := dropWhile_head_false hdw
        simpa using this
      subst hchead
      rw [hdw] at hdec
      have hu : '@' ∉ m.takeWhile (fun c => !(c = '@')) := by
        intro hh
        have := List.mem_takeWhile_imp hh
        simp at this
      have hv : '@' ∉ v := by
        intro hh
        have hvp : 0 < v.count '@' := List.count_pos_iff.mpr hh
        have hcount : m.count '@'
            = (m.takeWhile (fun c => !(c = '@'))).count '@'
              + ('@' :: v).count '@' := by
          conv_lhs => rw [← hdec]
          rw [List.count_append]
        rw [List.count_eq_zero.mpr hu] at hcount
        have hcv : ('@' :: v).count '@' = v.count '@' + 1 := by
          rw [List.count_cons]
          simp
        rw [hcv] at hcount
        omega
      rw [← hdec]
      rw [stripPlus_one_at hu hv]
      rw [stripPlus_one_at (fun hh => hu (stripA_subset hh)) hv]
      rw [stripA_stripA]
  · rw [stripPlus_no_at hat, stripPlus_no_at hat]

theorem runSteps_append (a b : List (Data → Except Err Data)) (d : Data) :
    runSteps (a ++ b) d =
      match runSteps a d with
      | .ok d' => runSteps b d'
      | .error e => .error e := by
  induction a generalizing d with
  | nil => simp [runSteps]
  | cons s rest ih =>
    simp only [List.cons_append, runSteps]
    cases s d with
    | ok d' => exact ih d'
    | error e => rfl

theorem tblMem_eq_isSome (t : FwdTable) (k : String) :
    tblMem t k = (tblGet t k).isSome := by
  induction t with
  | nil => rfl
  | cons p rest ih =>
    obtain ⟨k', v⟩ := p
    by_cases h : k' = k <;> simp [tblMem, tblGet, h, ih]

theorem lastAtPos_lt_length {l : List Char} {p : Nat}
    (h : lastAtPos l = some p) : p < l.length := by
  induction l generalizing p with
  | nil => simp [lastAtPos] at h
  | cons c r ih =>
    unfold lastAtPos at h
    cases hr : lastAtPos r with
    | some i =>
      rw [hr] at h
      simp only [Option.some.injEq] at h
      subst h
      have := ih hr
      simp
      omega
    | none =>
      rw [hr] at h
      by_cases hc : c = '@'
      · simp only [hc, if_true, Option.some.injEq] at h
        subst h; simp
      · simp [hc] at h

theorem transformLoop_ok (t : FwdTable) (rs : List String)
    (acc : List String) (orig : Option String) :
    transformLoop (some t) rs acc orig =
      .ok (acc ++ newRecipientsOf t rs,
        rs.foldl
          (fun a r => if (resolveKey t (normalize r)).isSome then some r else a)
          orig) := by
  induction rs generalizing acc orig with
  | nil => simp [transformLoop, newRecipientsOf]
  | cons r rest ih =>
    simp only [transformLoop, newRecipientsOf, List.foldl_cons]
    cases h : resolveKey t (normalize r) with
    | some dests =>
      simp only [h, Option.isSome_some, if_true]
      rw [ih, List.append_assoc]
    | none =>
      simp only [h, Option.isSome_none, Bool.false_eq_true, if_false]
      rw [ih, List.nil_append]

theorem foldl_lastMatch_isSome (t : FwdTable) (rs : List String)
    (x : String) :
    (rs.foldl
      (fun a r => if (resolveKey t (normalize r)).isSome then some r else a)
      (some x)).isSome := by
  induction rs generalizing x with
  | nil => simp
  | cons r rest ih =>
    simp only [List.foldl_cons]
    by_cases h : (resolveKey t (normalize r)).isSome <;> simp [h, ih]

theorem newRecipientsOf_ne_nil_isSome (t : FwdTable) (rs : List String)
    (orig : Option String) (h : newRecipientsOf t rs ≠ []) :
    (rs.foldl
      (fun a r => if (resolveKey t (normalize r)).isSome then some r else a)
      orig).isSome := by
  induction rs generalizing orig with
  | nil => simp [newRecipientsOf] at h
  | cons r rest ih =>
    simp only [newRecipientsOf] at h
    simp only [List.foldl_cons]
    cases hr : resolveKey t (normalize r) with
    | some dests =>
      simp only [hr, Option.isSome_some, if_true]
      exact foldl_lastMatch_isSome t rest r
    | none =>
      simp only [hr] at h
      simp only [List.nil_append] at h
      simp only [hr, Option.isSome_none, Bool.false_eq_true, if_false]
      exact ih orig h

theorem foldl_lastMatch_init_irrel (t : FwdTable) (rs : List String)
    (orig : Option String)
    (h : (lastMatching t rs).isSome) :
    rs.foldl
      (fun a r => if (resolveKey t (normalize r)).isSome then some r else a)
      orig = lastMatching t rs := by
  induction rs generalizing orig with
  | nil => simp [lastMatching] at h
  | cons r rest ih =>
    simp only [lastMatching, List.foldl_cons] at h ⊢
    by_cases hr : (resolveKey t (normalize r)).isSome
    · simp only [hr, if_true]
    · simp only [hr, Bool.false_eq_true, if_false] at h ⊢
      simp only [lastMatching] at ih
      exact ih orig h

/-! ## Claims -/

/-- C1: on an empty forwarding table the Recipient Transformer takes
the early "success" exit by returning `data.callback()` — but the
driver's `for` loop does not stop: it hands the callback's return value
to `fetchMessage` and the later stages do run.  With the full default
step list the invocation ends in the generic failure signal, while
cutting the step list after the transformer (as the claim demands)
would end it successfully — so the later stages both execute and
change the outcome, contradicting the claim. -/
theorem c1_code_continues_after_empty_destinations :
    handler (defaultSteps (some []) cb1 (fun _ => none) "pre" "dom"
      (fun _ => true)) ev1 cfg1 = some genericFailure
  ∧ handler [parseEvent, transformRecipients (some []) cb1] ev1 cfg1 = none := by
  constructor <;> rfl

/-- C2 counterexample: the claim's rule 3 (local-part lookup, stated
unconditionally) disagrees with the source when the normalized address
has an empty local part: for the table `{"": ["u@d.com"]}` and
recipient `"@example.com"` the claim's rules resolve `["u@d.com"]`
while the source's truthiness guard skips the empty local part and
resolves nothing. -/
theorem c2_counterexample :
    resolveSpec [("", ["u@d.com"])] "@example.com" = some ["u@d.com"]
  ∧ resolveKey [("", ["u@d.com"])] "@example.com" = none
  ∧ resolveSpec [("", ["u@d.com"])] "@example.com"
      ≠ resolveKey [("", ["u@d.com"])] "@example.com" := by
  refine ⟨rfl, rfl, ?_⟩
  decide

/-- C2 as amended: resolution tries, in order, exact match, domain
portion (from the last `@`, inclusive), local part (before the last
`@`) provided the local part is nonempty, then the catch-all `"@"`,
stopping at the first match; and on the claim's concrete example
exact-match wins with destinations exactly
`["a1@dest.com", "a2@dest.com"]`. -/
theorem c2_resolution_order :
    (∀ (t : FwdTable) (k : String), resolveKey t k = resolveSpecAmended t k)
  ∧ (match transformRecipients
        (some [("alice@example.com", ["a1@dest.com", "a2@dest.com"]),
               ("@example.com", ["domain@dest.com"])]) cb1
        { event := ev1, config := cfg1,
          recipients := some ["alice@example.com"] } with
     | .ok d => d.recipients = some ["a1@dest.com", "a2@dest.com"]
     | .error _ => False) := by
  constructor
  · intro t k
    unfold resolveKey resolveSpecAmended
    cases hx : tblGet t k with
    | some l => simp [hx, Option.or]
    | none =>
      simp only [hx]
      cases hp : lastAtPos k.data with
      | none =>
        have hm : tblMem t k = false := by
          rw [tblMem_eq_isSome, hx]; rfl
        simp [hm, domainAt, localAt, hp, hx, Option.or]
      | some p =>
        have hd : String.mk (k.data.drop p) ≠ "" := by
          have hlt := lastAtPos_lt_length hp
          intro he
          have : k.data.drop p = [] := by
            have := congrArg String.data he
            simpa using this
          rw [List.drop_eq_nil_iff] at this
          omega
        simp only [domainAt, localAt, hp, Option.map_some]
        cases hdg : tblGet t (String.mk (k.data.drop p)) with
        | some l =>
          have hdm : tblMem t (String.mk (k.data.drop p)) = true := by
            rw [tblMem_eq_isSome, hdg]; rfl
          simp [hd, hdm, hdg, Option.or]
        | none =>
          have hdm : tblMem t (String.mk (k.data.drop p)) = false := by
            rw [tblMem_eq_isSome, hdg]; rfl
          by_cases hu : String.mk (k.data.take p) = ""
          · simp [hd, hdm, hdg, hu, Option.or]
          · cases hug : tblGet t (String.mk (k.data.take p)) with
            | some l =>
              have hum : tblMem t (String.mk (k.data.take p)) = true := by
                rw [tblMem_eq_isSome, hug]; rfl
              simp [hd, hdm, hdg, hu, hum, hug, Option.or]
            | none =>
              have hum : tblMem t (String.mk (k.data.take p)) = false := by
                rw [tblMem_eq_isSome, hug]; rfl
              simp [hd, hdm, hdg, hu, hum, hug, Option.or]
  · rfl

/-- C3 counterexample: normalization is not idempotent on every
address string.  The replacement regex `\+.*?@` is applied once
(non-globally); on `"a+b@c+d@e"` the first pass strips `+b@` leaving
`"a@c+d@e"`, and a second pass strips the remaining `+d@`, giving
`"a@c@e"` — the doubly-normalized value differs. -/
theorem c3_counterexample :
    normalize "a+b@c+d@e" = "a@c+d@e"
  ∧ normalize (normalize "a+b@c+d@e") = "a@c@e"
  ∧ normalize (normalize "a+b@c+d@e") ≠ normalize "a+b@c+d@e" := by
  refine ⟨rfl, rfl, ?_⟩
  decide

/-- C3 as amended: normalization is idempotent on every address
containing at most one `@` — in particular on every well-formed email
address — and `"User+Tag@Example.com"` normalizes to
`"user@example.com"`.  (With several `@`s a second pass can strip a
further plus-tag, see the counterexample.) -/
theorem c3_normalize_idempotent :
    (∀ s : String, atCount s ≤ 1 → normalize (normalize s) = normalize s)
  ∧ normalize "User+Tag@Example.com" = "user@example.com" := by
  constructor
  · intro s h
    unfold normalize
    congr 1
    show stripPlusL ((stripPlusL (s.data.map Char.toLower)).map Char.toLower)
      = stripPlusL (s.data.map Char.toLower)
    have hfix : ∀ c ∈ s.data.map Char.toLower, Char.toLower c = c := by
      intro c hc
      obtain ⟨c0, -, hc0⟩ := List.mem_map.mp hc
      rw [← hc0]
      exact toLower_toLower c0
    have hmap : (stripPlusL (s.data.map Char.toLower)).map Char.toLower
        = stripPlusL (s.data.map Char.toLower) := by
      refine map_id_of_fixed (fun c hc => ?_)
      rcases stripPlus_chars c hc with h1 | h1
      · exact hfix c h1
      · rw [h1]
        decide
    rw [hmap]
    refine stripPlus_idem_of_count ?_
    rw [count_at_map_toLower]
    exact h
  · rfl

/-- Witness for C3 at a concrete single-`@` address. -/
theorem c3_normalize_idempotent_witness :
    atCount "x+y@z.com" ≤ 1
  ∧ normalize (normalize "x+y@z.com") = normalize "x+y@z.com" :=
  ⟨by decide, c3_normalize_idempotent.1 "x+y@z.com" (by decide)⟩

/-- C4 counterexample: for the message `"a\n \nb\n"` the claim's split
rule (a blank line is one containing only optional whitespace) makes
the header `"a\n"` and the body `" \nb\n"`, but the source's pattern
`(?:.+\r?\n)*` treats the whitespace-only line `" \n"` as a further
header line — dots match blanks — and, finding no completely empty
line, the whole match fails: the code keeps the entire message as the
header with an empty body. -/
theorem c4_counterexample :
    claimSplit "a\n \nb\n".data = ("a\n".data, " \nb\n".data)
  ∧ headerBody "a\n \nb\n".data = ("a\n \nb\n".data, [])
  ∧ claimSplit "a\n \nb\n".data ≠ headerBody "a\n \nb\n".data := by
  refine ⟨rfl, rfl, ?_⟩
  decide

/-- C4 as amended, for LF-only messages (no `\r`, U+2028 or U+2029;
CRLF messages have further quirks — see C5 for the body truncation on
a CRLF example): when the message contains a completely empty line
after a run of nonempty lines, the header is that run — or the whole
message if the run is empty, because an empty group 1 is falsy — and
the body is the empty line's `\n` followed by the remainder truncated
after its last whitespace character; when no empty line is reachable
this way, the whole message is the header and the body is empty.  The
rewritten message is always the rewritten header concatenated with the
unmodified body segment. -/
theorem c4_split_characterization (s : List Char) (hLF : LFonly s) :
    (headerBody s =
      match lfSplitSpec s with
      | none => (s, [])
      | some p => ((if p.1.isEmpty then s else p.1), '\n' :: takeToLastWs p.2))
  ∧ ∀ (dom : String) (d : Data), d.emailData = some (String.mk s) →
      processMessage dom d = .ok { d with emailData := some (String.mk
        (headerTransform dom d.config.toEmail (headerBody s).1
          ++ (headerBody s).2)) } := by
  constructor
  · cases hs : lfSplitSpec s with
    | none =>
      have hscan : scanMatch s = none :=
        scanMatch_lf_none s.length s le_rfl hLF hs
      simp [headerBody, hscan]
    | some p =>
      obtain ⟨g1, r⟩ := p
      have hM : matchAt s = some (g1, '\n' :: takeToLastWs r) := by
        rw [matchAt_lf s.length s le_rfl hLF, hs]
        rfl
      have hscan : scanMatch s = some (g1, '\n' :: takeToLastWs r) := by
        rw [scanMatch_eq, hM]
      simp [headerBody, hscan]
  · intro dom d hd
    simp only [processMessage, hd]

/-- Witness for C4 at a concrete LF-only input with a blank-line
boundary and a body truncated at its last whitespace. -/
theorem c4_split_characterization_witness :
    LFonly "a\nb\n\nbody x\nmore".data
  ∧ headerBody "a\nb\n\nbody x\nmore".data =
      (match lfSplitSpec "a\nb\n\nbody x\nmore".data with
       | none => ("a\nb\n\nbody x\nmore".data, [])
       | some p => ((if p.1.isEmpty then "a\nb\n\nbody x\nmore".data else p.1),
                    '\n' :: takeToLastWs p.2)) :=
  ⟨by unfold LFonly; decide, (c4_split_characterization
    "a\nb\n\nbody x\nmore".data (by unfold LFonly; decide)).1⟩

/-- C5: on the message `"From: A <a@b.com>\r\nTo: x@y.com\r\n\r\nhello"`
with no `To:` override, the processor does rewrite the `From:` line to
the no-reply address and does add `Reply-To: A <a@b.com>` — but the
claimed body `"hello"` is NOT preserved: the body capture
`\r?\n(?:.*\s+)*` consumes the remainder only up to its last whitespace
character, and `"hello"` ends in none, so the emitted body is just the
blank line `"\r\n"` and the text `"hello"` is dropped from the rebuilt
message.  This theorem evaluates the stage at the failing input. -/
theorem c5_body_dropped :
    processMessage "example.org"
      { event := ev1, config := cfg1,
        emailData := some "From: A <a@b.com>\r\nTo: x@y.com\r\n\r\nhello" }
      = .ok { event := ev1, config := cfg1,
              emailData := some
                "From: A <noreply@example.org>\r\nTo: x@y.com\r\nReply-To: A <a@b.com>\r\n\r\n" } := by
  rfl

/-- C6: the Event Parser succeeds exactly on one-record notifications
from source `aws:ses` with version `1.0`, extracting the mail block
and the recipients unchanged and in order; every other notification
raises `InvalidEventError` without populating anything. -/
theorem c6_parseEvent_exact (d : Data) :
    (∀ r, d.event.Records = [r] → r.eventSource = "aws:ses" →
      r.eventVersion = "1.0" →
      parseEvent d = .ok { d with email := some r.ses.mail,
                                  recipients := some r.ses.receipt.recipients })
  ∧ ((¬ ∃ r, d.event.Records = [r] ∧ r.eventSource = "aws:ses" ∧
        r.eventVersion = "1.0") →
      parseEvent d = .error Err.invalidEvent) := by
  constructor
  · intro r hr hs hv
    unfold parseEvent
    rw [hr]
    simp [hs, hv]
  · intro hno
    unfold parseEvent
    cases hr : d.event.Records with
    | nil => rfl
    | cons a t =>
      cases t with
      | nil =>
        by_cases hs : a.eventSource = "aws:ses" ∧ a.eventVersion = "1.0"
        · exact absurd ⟨a, hr, hs.1, hs.2⟩ hno
        · have : ¬ (a.eventSource = "aws:ses" ∧ a.eventVersion = "1.0") := hs
          by_cases h1 : a.eventSource = "aws:ses"
          · have h2 : a.eventVersion ≠ "1.0" := fun h => this ⟨h1, h⟩
            simp [h1, h2]
          · simp [h1]
      | cons b t2 => rfl

/-- Witness for C6 at concrete inputs: a valid event extracts the
fields, the empty-records event is rejected. -/
theorem c6_parseEvent_exact_witness :
    parseEvent (initData ev1 cfg1)
      = .ok { initData ev1 cfg1 with
              email := some { messageId := "m1" },
              recipients := some ["x@y.com"] }
  ∧ parseEvent (initData { Records := [] } cfg1) = .error Err.invalidEvent := by
  constructor
  · exact (c6_parseEvent_exact (initData ev1 cfg1)).1 _ rfl rfl rfl
  · refine (c6_parseEvent_exact (initData { Records := [] } cfg1)).2 ?_
    rintro ⟨r, hr, -, -⟩
    simp [initData] at hr

/-- C7: whichever stage raises whichever error, the driver skips every
later stage (the result does not depend on the suffix) and finishes
the invocation with the one generic failure signal, independent of the
raised error kind. -/
theorem c7_generic_failure (pre : List (Data → Except Err Data))
    (f : Data → Except Err Data) (suf : List (Data → Except Err Data))
    (ev : SESEvent) (cfg : Config) (d' : Data) (e : Err)
    (h1 : runSteps pre (initData ev cfg) = .ok d')
    (h2 : f d' = .error e) :
    handler (pre ++ f :: suf) ev cfg = some genericFailure := by
  unfold handler
  rw [runSteps_append, h1]
  simp [runSteps, h2]

/-- Witness for C7: a failing first stage with a nonempty suffix. -/
theorem c7_generic_failure_witness :
    handler ([] ++ (fun _ => Except.error Err.sendError) :: [parseEvent])
      ev1 cfg1 = some genericFailure :=
  c7_generic_failure [] (fun _ => Except.error Err.sendError) [parseEvent]
    ev1 cfg1 (initData ev1 cfg1) Err.sendError rfl rfl

/-- C8: whenever the transformer returns normally (the accumulated
destination list is nonempty, so a send will follow), the envelope
sender it records — the `Source` of the send parameters — is the last
recipient in iteration order that matched a rule (last writer wins);
and on the catch-all example the destinations are
`["catchall@dest.com"]` with envelope sender `"anyone@domain.com"`. -/
theorem c8_envelope_sender :
    (∀ (t : FwdTable) (cb : Callback) (d : Data) (rs : List String),
      d.recipients = some rs → newRecipientsOf t rs ≠ [] →
      transformRecipients (some t) cb d
        = .ok { d with originalRecipients := some rs,
                       recipients := some (newRecipientsOf t rs),
                       originalRecipient := lastMatching t rs }
      ∧ (sendParams { d with originalRecipients := some rs,
                             recipients := some (newRecipientsOf t rs),
                             originalRecipient := lastMatching t rs }).Source
          = lastMatching t rs)
  ∧ (match transformRecipients (some [("@", ["catchall@dest.com"])]) cb1
        { event := ev1, config := cfg1,
          recipients := some ["anyone@domain.com"] } with
     | .ok d => d.recipients = some ["catchall@dest.com"]
                ∧ d.originalRecipient = some "anyone@domain.com"
     | .error _ => False) := by
  constructor
  · intro t cb d rs h1 h2
    have hlm : (lastMatching t rs).isSome := by
      unfold lastMatching
      exact newRecipientsOf_ne_nil_isSome t rs none h2
    constructor
    · unfold transformRecipients
      rw [h1]
      simp only [Option.getD_some]
      rw [transformLoop_ok]
      simp only [List.nil_append]
      rw [foldl_lastMatch_init_irrel t rs d.originalRecipient hlm]
      simp [h2, h1]
    · rfl
  · exact ⟨rfl, rfl⟩

/-- Witness for C8 at a concrete input with two matching recipients:
the second one wins. -/
theorem c8_envelope_sender_witness :
    transformRecipients (some [("@", ["d@e.f"])]) cb1
      { event := ev1, config := cfg1, recipients := some ["a@b.c", "g@h.i"] }
      = .ok { event := ev1, config := cfg1,
              originalRecipients := some ["a@b.c", "g@h.i"],
              recipients := some ["d@e.f", "d@e.f"],
              originalRecipient := some "g@h.i" } := by
  have h := (c8_envelope_sender.1 [("@", ["d@e.f"])] cb1
    { event := ev1, config := cfg1, recipients := some ["a@b.c", "g@h.i"] }
    ["a@b.c", "g@h.i"] rfl (by decide)).1
  exact h

/-- C9 counterexample: with an unparsable forwarding table but an
empty recipient list, the per-recipient loop body — where the parse
happens — never runs, so no `ConfigurationError` is raised: the stage
takes the empty-destination early exit instead. -/
theorem c9_counterexample :
    transformRecipients none cb1
      { event := ev1, config := cfg1, recipients := some [] }
      = .ok (cb1 none)
  ∧ transformRecipients none cb1
      { event := ev1, config := cfg1, recipients := some [] }
      ≠ .error Err.configError := by
  refine ⟨rfl, ?_⟩
  intro h
  rw [show transformRecipients none cb1
      { event := ev1, config := cfg1, recipients := some [] }
      = .ok (cb1 none) from rfl] at h
  exact Except.noConfusion h

/-- C9 as amended: whenever the forwarding table fails to parse and at
least one recipient is present, the transformer raises
`ConfigurationError` on the first iteration, before any destination is
appended; with no recipients the parse is never attempted and the
stage takes the successful empty-destination early exit. -/
theorem c9_config_error (cb : Callback) (d : Data) (r : String)
    (rest : List String) (h : d.recipients = some (r :: rest)) :
    transformRecipients none cb d = .error Err.configError := by
  unfold transformRecipients
  rw [h]
  rfl

/-- Witness for C9 at a concrete input. -/
theorem c9_config_error_witness :
    transformRecipients none cb1
      { event := ev1, config := cfg1, recipients := some ["x@y.com"] }
      = .error Err.configError :=
  c9_config_error cb1
    { event := ev1, config := cfg1, recipients := some ["x@y.com"] }
    "x@y.com" [] rfl

/-- C10: the fetch and process stages are frame-preserving on the
recipient-related context: `fetchMessage` only writes the fetched raw
message and `processMessage` only rewrites it; the current recipients,
original recipients and envelope sender (and the event, config and
mail block) are untouched. -/
theorem c10_frame :
    (∀ (s3 : String → Option String) (kp : String) (d d' : Data),
      fetchMessage s3 kp d = .ok d' →
      d'.recipients = d.recipients
      ∧ d'.originalRecipients = d.originalRecipients
      ∧ d'.originalRecipient = d.originalRecipient
      ∧ d'.event = d.event ∧ d'.config = d.config ∧ d'.email = d.email)
  ∧ (∀ (dom : String) (d d' : Data),
      processMessage dom d = .ok d' →
      d'.recipients = d.recipients
      ∧ d'.originalRecipients = d.originalRecipients
      ∧ d'.originalRecipient = d.originalRecipient
      ∧ d'.event = d.event ∧ d'.config = d.config ∧ d'.email = d.email) := by
  constructor
  · intro s3 kp d d' h
    unfold fetchMessage at h
    rcases hs : s3 (kp ++ (match d.email with
                           | some m => m.messageId
                           | none => "undefined")) with - | content
    · rw [hs] at h
      exact absurd h (by simp)
    · rw [hs] at h
      simp only [Except.ok.injEq] at h
      subst h
      exact ⟨rfl, rfl, rfl, rfl, rfl, rfl⟩
  · intro dom d d' h
    unfold processMessage at h
    split at h
    · simp only [Except.ok.injEq] at h
      subst h
      exact ⟨rfl, rfl, rfl, rfl, rfl, rfl⟩
    · simp only [Except.ok.injEq] at h
      subst h
      exact ⟨rfl, rfl, rfl, rfl, rfl, rfl⟩

/-- Witness for C10 at concrete inputs. -/
theorem c10_frame_witness :
    (fetchMessage (fun _ => some "raw") "p" (initData ev1 cfg1)
        = .ok { initData ev1 cfg1 with emailData := some "raw" })
  ∧ ((initData ev1 cfg1 : Data).recipients
        = (initData ev1 cfg1 : Data).recipients) := by
  refine ⟨rfl, ?_⟩
  have h := c10_frame.1 (fun _ => some "raw") "p" (initData ev1 cfg1)
    { initData ev1 cfg1 with emailData := some "raw" } rfl
  exact h.1

end MailForwarder
